import Mathlib

/-!
Verification of the PRAGUVA multi-hop retrieval core.

This file gives a shallow embedding of the algorithmic core of the
repository and proves the specified properties about it:

* `multi_hop_search.py` — `MultiHopDriver.one_hop_subgraph` (post-fetch
  per-label relevance pruning by cosine similarity), the local `cosine`
  helper, `MultiHopDriver.two_hop_via_python` (budgeted 0–1-BFS expansion),
  `_hop_budget_for`, `_transition_cost`, and `_dedupe_merge`.
* `embedding_search.py` — `hybrid_search` (the fusion Cypher query that
  joins two vector-index rankings and blends their scores).

External collaborators (the Neo4j session, the APOC subgraph call, the
vector indexes) are modelled as oracles passed in as functions: a fetch
oracle returns `Except.error` when the underlying call raises, `Except.ok
none` when no record comes back, and `Except.ok (some (nodes, rels))`
otherwise.  Python floats are modelled as real numbers; the parts of the
algorithm that do not inspect score values are kept generic in the score
type `σ` (a linear order), with the concrete driver obtained by
instantiating `σ` with `WithBot ℝ` and the score with the source's
`cosine` (where `⊥` stands for `float("-inf")`).
-/

/-- A node record as built by the Cypher query: `id` is `elementId(n)`
(the empty string models a falsy/missing id), `labels` is `labels(n)`,
and `emb` is the value stored under the embedding property
(`props[embedding_prop]`); `none` models a missing or non-list value.
The scalar type `E` is `ℝ` for the real driver and is kept generic so
that runs that never inspect the embedding remain executable. -/
structure Node (E : Type) where
  id : String
  labels : List String
  emb : Option (List E)
deriving DecidableEq

/-- A relationship record: `id`, `type`, `start = elementId(startNode)`,
and `endId` models the record's `end` key (`end` is reserved in Lean). -/
structure Edge where
  id : String
  type : String
  start : String
  endId : String
deriving DecidableEq

/-- First-match lookup in an association list keyed by strings;
models `d[k]` / `k in d` for a Python dict represented in insertion
order. -/
def alookup {β : Type} (k : String) : List (String × β) → Option β
  | [] => none
  | p :: t => if p.1 = k then some p.2 else alookup k t

/-- Insert-or-overwrite, keeping the key's original position: models
`d[k] = v` on a Python dict. -/
def upsert {β : Type} (k : String) (v : β) : List (String × β) → List (String × β)
  | [] => [(k, v)]
  | p :: t => if p.1 = k then (k, v) :: t else p :: upsert k v t

/-- One step of a stable descending insertion sort: `a` is placed before
the first element whose key is strictly smaller, hence after all earlier
elements with an equal key. -/
def insertDesc {α β : Type} [LinearOrder β] (key : α → β) (a : α) : List α → List α
  | [] => [a]
  | b :: l => if key b < key a then a :: b :: l else b :: insertDesc key a l

/-- Stable descending sort by key; models Python's
`list.sort(key=..., reverse=True)` extensionally (a stable sort,
descending in the key). -/
def sortDesc {α β : Type} [LinearOrder β] (key : α → β) (l : List α) : List α :=
  l.foldl (fun acc a => insertDesc key a acc) []

/-- The `scores` dict of `one_hop_subgraph`: one entry per truthy node id,
later nodes with the same id overwriting earlier ones
(`scores[nid] = cosine(vec)`). -/
def scoresMap {E σ : Type} (score : Node E → σ) (ns : List (Node E)) : List (String × σ) :=
  ns.foldl (fun m n => if n.id = "" then m else upsert n.id (score n) m) []

/-- The sort key `scores.get(nn.get("id"), float("-inf"))`: a dict miss
yields `⊥`. -/
def scoreKey {E σ : Type} (sm : List (String × σ)) (n : Node E) : WithBot σ :=
  match alookup n.id sm with
  | none => ⊥
  | some v => (v : WithBot σ)

/-- Append a string if it is not already present; folding this keeps the
first occurrence of each element, like Python dict-key order. -/
def insertFirst (l : List String) (a : String) : List String :=
  if a ∈ l then l else l ++ [a]

/-- The keys of `label_buckets`, in first-appearance order: all labels of
nodes with a truthy id. -/
def labelsIn {E : Type} (ns : List (Node E)) : List String :=
  (ns.foldl (fun acc n => acc ++ (if n.id = "" then [] else n.labels)) []).foldl insertFirst []

/-- The bucket `label_buckets[lbl]`: nodes with a truthy id, one entry per
occurrence of `lbl` in the node's label list, in node order
(`label_buckets.setdefault(lbl, []).append(n)`). -/
def bucketOf {E : Type} (lbl : String) (ns : List (Node E)) : List (Node E) :=
  ns.foldl (fun acc n =>
    acc ++ (if n.id = "" then [] else List.replicate (n.labels.count lbl) n)) []

/-- Ids kept from one bucket: sort descending by score, take the first
`top` entries, record the truthy ids
(`for nn in bucket[:max(0, top_per_label)]: ...`). -/
def topKeepIds {E σ : Type} [LinearOrder σ] (key : Node E → WithBot σ) (top : Nat)
    (bucket : List (Node E)) : List String :=
  (((sortDesc key bucket).take top).filter (fun n => decide (n.id ≠ ""))).map Node.id

/-- The post-filter of `one_hop_subgraph` when a query embedding is given
(lines 98–142): per-label top-k by score, union across labels, force-add
`always_keep_ids`, keep only surviving nodes, and keep only relationships
whose two endpoints survive. -/
def pruneByEmbedding {E σ : Type} [LinearOrder σ] (score : Node E → σ) (top : Nat)
    (alwaysKeep : List String) (ns : List (Node E)) (es : List Edge) :
    List (Node E) × List Edge :=
  let key := scoreKey (scoresMap score ns)
  let keepIds := (labelsIn ns).foldl (fun acc lbl => acc ++ topKeepIds key top (bucketOf lbl ns)) []
  let keepAll := keepIds ++ alwaysKeep
  let ns2 := ns.filter (fun n => decide (n.id ∈ keepAll))
  let kept := (ns2.filter (fun n => decide (n.id ≠ ""))).map Node.id
  (ns2, es.filter (fun e => decide (e.start ∈ kept) && decide (e.endId ∈ kept)))

/-- `MultiHopDriver.one_hop_subgraph`.  The Cypher/APOC round trip
(including `max_nodes`/`max_rels` truncation and the relationship/label
filters) is the fetch oracle; `Except.error` models the call raising (the
`except` branch returns empty results), `ok none` models
`rec` being falsy.  With a query embedding the fetched neighborhood is
pruned, otherwise it is returned unchanged. -/
def one_hop_subgraph {E σ : Type} [LinearOrder σ]
    (score : List E → Node E → σ)
    (fetch : List String → Except Unit (Option (List (Node E) × List Edge)))
    (eids : List String) (qe : Option (List E)) (top : Nat) (alwaysKeep : List String) :
    List (Node E) × List Edge :=
  if eids = [] then ([], [])
  else
    match fetch eids with
    | .error _ => ([], [])
    | .ok none => ([], [])
    | .ok (some (ns, es)) =>
      match qe with
      | none => (ns, es)
      | some q => pruneByEmbedding (score q) top alwaysKeep ns es

/-- `MultiHopDriver._transition_cost`: free within the `Topic` taxonomy,
cost 1 otherwise. -/
def transition_cost (prev next : List String) : Nat :=
  if "Topic" ∈ prev ∧ "Topic" ∈ next then 0 else 1

/-- `MultiHopDriver._hop_budget_for`: constant budget 2. -/
def hop_budget_for (_labels : List String) : Nat := 2

/-- The `label_by_id` dict of `two_hop_via_python`: labels per truthy
neighbor id, later entries overwriting earlier ones, with `[]` on a
miss. -/
def labelById {E : Type} (ns : List (Node E)) (k : String) : List String :=
  (alookup k (ns.foldl (fun m n => if n.id = "" then m else upsert n.id n.labels m) [])).getD []

/-- Node half of `MultiHopDriver._dedupe_merge`: insert each node with a
truthy id under its id unless the id is already present (first writer
wins); a Python dict is in insertion order, so new entries go at the
end. -/
def mergeNodes {E : Type} : List (String × Node E) → List (Node E) → List (String × Node E)
  | nm, [] => nm
  | nm, n :: t =>
    if n.id = "" then mergeNodes nm t
    else
      match alookup n.id nm with
      | some _ => mergeNodes nm t
      | none => mergeNodes (nm ++ [(n.id, n)]) t

/-- Edge half of `MultiHopDriver._dedupe_merge`. -/
def mergeEdges : List (String × Edge) → List Edge → List (String × Edge)
  | em, [] => em
  | em, e :: t =>
    if e.id = "" then mergeEdges em t
    else
      match alookup e.id em with
      | some _ => mergeEdges em t
      | none => mergeEdges (em ++ [(e.id, e)]) t

/-- `MultiHopDriver._dedupe_merge`: nodes first, then relationships. -/
def dedupe_merge {E : Type} (nm : List (String × Node E)) (em : List (String × Edge))
    (ns : List (Node E)) (es : List Edge) :
    List (String × Node E) × List (String × Edge) :=
  (mergeNodes nm ns, mergeEdges em es)

/-- State of one seed's traversal loop: `best` is `best_cost`, `dq` the
deque of `(node_id, labels, cost_so_far)` frontier items, `nmap`/`emap`
the shared result accumulator. -/
structure LoopState (E : Type) where
  best : List (String × Nat)
  dq : List (String × List String × Nat)
  nmap : List (String × Node E)
  emap : List (String × Edge)
deriving DecidableEq

/-- Accumulator of the `for nb in nbors` loop: the `allowed_ids` set and
the (mutated) `best_cost` and deque. -/
structure NbAcc where
  allowed : List String
  best : List (String × Nat)
  dq : List (String × List String × Nat)
deriving DecidableEq

/-- Body of the `for nb in nbors` loop of `two_hop_via_python`: skip falsy
ids, compute the step cost from `label_by_id`, admit the neighbor when the
new cost is within budget, and on a strict `best_cost` improvement record
it and enqueue — at the front for zero-cost steps, at the back
otherwise. -/
def processNeighbor {E : Type} (budget : Nat) (curLabels : List String) (cost : Nat)
    (nbors : List (Node E)) (acc : NbAcc) (nb : Node E) : NbAcc :=
  if nb.id = "" then acc
  else
    let nls := labelById nbors nb.id
    let step := transition_cost curLabels nls
    let newc := cost + step
    if newc ≤ budget then
      let allowed := acc.allowed.insert nb.id
      if newc < (alookup nb.id acc.best).getD (10 ^ 9) then
        let item := (nb.id, nls, newc)
        { allowed := allowed, best := upsert nb.id newc acc.best,
          dq := if step = 0 then item :: acc.dq else acc.dq ++ [item] }
      else { acc with allowed := allowed }
    else acc

/-- Body of one `while dq` iteration for a frontier item that is still
within budget: fetch its one-hop neighborhood (protecting the frontier
id, default `top_per_label = 5`), process the neighbors, and — when
anything fell within budget — merge the admitted nodes and the edges
whose two endpoints were admitted. -/
def mainStep {E σ : Type} [LinearOrder σ] (score : List E → Node E → σ)
    (fetch : List String → Except Unit (Option (List (Node E) × List Edge)))
    (qe : Option (List E)) (budget : Nat) (b : List (String × Nat))
    (cid : String) (clabels : List String) (cost : Nat)
    (rest : List (String × List String × Nat)) (nm : List (String × Node E))
    (em : List (String × Edge)) : LoopState E :=
  let fr := one_hop_subgraph score fetch [cid] qe 5 [cid]
  let acc := fr.1.foldl (processNeighbor budget clabels cost fr.1) ⟨[], b, rest⟩
  if acc.allowed = [] then
    { best := acc.best, dq := acc.dq, nmap := nm, emap := em }
  else
    let fns := fr.1.filter (fun n => decide (n.id ∈ acc.allowed))
    let fids := fns.map Node.id
    let frs := fr.2.filter (fun e => decide (e.start ∈ fids) && decide (e.endId ∈ fids))
    let me := dedupe_merge nm em fns frs
    { best := acc.best, dq := acc.dq, nmap := me.1, emap := me.2 }

/-- One iteration of the `while dq` loop of `two_hop_via_python`: pop the
front item; if its cost has reached the budget, skip it; otherwise run
`mainStep` on it. -/
def stepOnce {E σ : Type} [LinearOrder σ] (score : List E → Node E → σ)
    (fetch : List String → Except Unit (Option (List (Node E) × List Edge)))
    (qe : Option (List E)) (budget : Nat) (s : LoopState E) : LoopState E :=
  match s.dq with
  | [] => s
  | (cid, clabels, cost) :: rest =>
    if budget ≤ cost then { s with dq := rest }
    else mainStep score fetch qe budget s.best cid clabels cost rest s.nmap s.emap

/-- The `while dq` loop, with a fuel bound (the Python loop terminates on
any finite graph because `best_cost` strictly decreases on re-enqueue;
the fuel makes the recursion structural, and every invariant below holds
for every fuel value). -/
def expandLoop {E σ : Type} [LinearOrder σ] (score : List E → Node E → σ)
    (fetch : List String → Except Unit (Option (List (Node E) × List Edge)))
    (qe : Option (List E)) (budget : Nat) : Nat → LoopState E → LoopState E
  | 0, s => s
  | fuel + 1, s =>
    if s.dq = [] then s
    else expandLoop score fetch qe budget fuel (stepOnce score fetch qe budget s)

/-- Initial loop state for one seed: `best_cost = {seed: 0}`, the deque
holds the seed at cost 0, and the seed record is force-merged into the
accumulator. -/
def seedInit {E : Type} (seed : Node E) (nm : List (String × Node E))
    (em : List (String × Edge)) : LoopState E :=
  let me := dedupe_merge nm em [seed] []
  { best := [(seed.id, 0)], dq := [(seed.id, seed.labels, 0)], nmap := me.1, emap := me.2 }

/-- One seed's traversal (`for seed in seed_nodes` body): seeds with a
falsy id are skipped, otherwise the loop runs with budget
`_hop_budget_for(labels)`. -/
def runSeed {E σ : Type} [LinearOrder σ] (score : List E → Node E → σ)
    (fetch : List String → Except Unit (Option (List (Node E) × List Edge)))
    (qe : Option (List E)) (fuel : Nat)
    (p : List (String × Node E) × List (String × Edge)) (seed : Node E) :
    List (String × Node E) × List (String × Edge) :=
  if seed.id = "" then p
  else
    let fin := expandLoop score fetch qe (hop_budget_for seed.labels) fuel (seedInit seed p.1 p.2)
    (fin.nmap, fin.emap)

/-- `MultiHopDriver.two_hop_via_python`: run every seed's bounded
traversal against the shared accumulator and return the accumulated node
and edge records in insertion order. -/
def two_hop_via_python {E σ : Type} [LinearOrder σ] (score : List E → Node E → σ)
    (fetch : List String → Except Unit (Option (List (Node E) × List Edge)))
    (seeds : List (Node E)) (qe : Option (List E)) (fuel : Nat) :
    List (Node E) × List Edge :=
  match seeds with
  | [] => ([], [])
  | _ :: _ =>
    let fin := seeds.foldl (runSeed score fetch qe fuel) ([], [])
    (fin.1.map Prod.snd, fin.2.map Prod.snd)

/-- Python's `x or 1.0` on a float: `1.0` when `x` is zero. -/
noncomputable def orOne (x : ℝ) : ℝ := if x = 0 then 1 else x

/-- `q_norm = math.sqrt(sum(x * x for x in q)) or 1.0`, computed over the
full query vector. -/
noncomputable def qnorm (q : List ℝ) : ℝ :=
  orOne (Real.sqrt ((q.map (fun x => x * x)).sum))

/-- Dot product of two equally-indexed prefixes. -/
noncomputable def vecDot (a b : List ℝ) : ℝ := (List.zipWith (· * ·) a b).sum

/-- The local `cosine` of `one_hop_subgraph`: `⊥` (i.e. `float("-inf")`)
for a missing/non-list/empty stored vector; otherwise both the dot
product and the stored vector's norm run over the first
`m = min(len(vec), len(q))` components, while the query norm `q_norm`
is taken over the full query vector. -/
noncomputable def cosine (q : List ℝ) : Option (List ℝ) → WithBot ℝ
  | none => ⊥
  | some vec =>
    if vec = [] then ⊥
    else
      let m := min vec.length q.length
      let num := vecDot (vec.take m) (q.take m)
      let vn := ((vec.take m).map (fun x => x * x)).sum
      ((num / (orOne (Real.sqrt vn) * qnorm q) : ℝ) : WithBot ℝ)

/-- The score family of the real driver: cosine similarity between the
query embedding and the node's stored vector. -/
noncomputable def cosineScore (q : List ℝ) (n : Node ℝ) : WithBot ℝ := cosine q n.emb

/-- The claim's similarity formula, stated in its own words: truncate the
longer vector to the shorter length for the dot product and for BOTH
norms.  This is the comparison definition for claim C6; the source
(`cosine`) differs in using the full-length query norm. -/
noncomputable def claimedCosine (q v : List ℝ) : ℝ :=
  let m := min v.length q.length
  vecDot (v.take m) (q.take m) /
    (orOne (Real.sqrt (((v.take m).map (fun x => x * x)).sum)) *
      orOne (Real.sqrt (((q.take m).map (fun x => x * x)).sum)))

/-- One candidate row of a vector-index query inside `hybrid_search`:
`eid = elementId(node)`, the node, and its similarity score. -/
structure Cand (E : Type) where
  eid : String
  node : Node E
  score : ℚ
deriving DecidableEq

/-- One result row of `hybrid_search`'s combined query. -/
structure HRow (E : Type) where
  node : Node E
  nodeEid : String
  tScore : ℚ
  gScore : ℚ
  combinedScore : ℚ
deriving DecidableEq

/-- The fusion part of `hybrid_search`'s combined Cypher query: the
cartesian `UNWIND` of the two candidate lists filtered to `t.eid = g.eid`
(an inner join), rows whose node carries the `Topic` label removed,
`combinedScore = alpha * tScore + (1 - alpha) * gScore`, ordered
descending by combined score and truncated to `top_k`. -/
def fuseRows {E : Type} (alpha : ℚ) (topk : Nat) (tl gl : List (Cand E)) : List (HRow E) :=
  let joined := tl.flatMap (fun t =>
    gl.filterMap (fun g => if t.eid = g.eid then some (t, g) else none))
  let kept := joined.filter (fun p => decide ("Topic" ∉ p.1.node.labels))
  let rows := kept.map (fun p =>
    { node := p.1.node, nodeEid := p.1.eid, tScore := p.1.score, gScore := p.2.score,
      combinedScore := alpha * p.1.score + (1 - alpha) * p.2.score : HRow E })
  (sortDesc (fun r => r.combinedScore) rows).take topk

/-- `hybrid_search` at the session boundary: the oracle is the result of
running the two index queries (`Except.error` models any exception inside
the `try` block); on failure the function returns the empty list, on
success the combined query's rows. -/
def hybrid_search {E : Type} (oracle : Except Unit (List (Cand E) × List (Cand E)))
    (alpha : ℚ) (topk : Nat) : List (HRow E) :=
  match oracle with
  | .error _ => []
  | .ok (tl, gl) => fuseRows alpha topk tl gl

/-- Number of surviving nodes that carry label `lbl` and are not
protected by `alwaysKeep` — the quantity bounded by the per-label-cap
claim. -/
def countSurv {E : Type} (lbl : String) (alwaysKeep : List String)
    (res : List (Node E) × List Edge) : Nat :=
  (res.1.filter (fun n => decide (lbl ∈ n.labels) && decide (n.id ∉ alwaysKeep))).length

/-- Checks that every fetched node whose id is protected survives into
the result. -/
def protectedKept {E : Type} [DecidableEq E] (alwaysKeep : List String)
    (ns : List (Node E)) (res : List (Node E) × List Edge) : Bool :=
  ns.all (fun n => !(decide (n.id ∈ alwaysKeep)) || decide (n ∈ res.1))

/-- Checks that every edge of a result has both endpoints among the
result's nodes. -/
def noDangling {E : Type} (res : List (Node E) × List Edge) : Bool :=
  res.2.all (fun e =>
    res.1.any (fun n => n.id == e.start) && res.1.any (fun n => n.id == e.endId))

/-- Checks the budget invariant of one traversal's final state: every
accumulated node id either was present before the traversal or has a
recorded `best_cost` of at most `budget`. -/
def budgetOk {E : Type} (budget : Nat) (initKeys : List String) (s : LoopState E) : Bool :=
  s.nmap.all (fun p =>
    decide (p.1 ∈ initKeys) || decide ((alookup p.1 s.best).getD (budget + 1) ≤ budget))

/-- Checks one fused row: its id occurs in both candidate lists, joined
rows blend the two scores with weight `alpha`, and the node does not
carry the `Topic` label. -/
def fusionRowOk {E : Type} (alpha : ℚ) (tl gl : List (Cand E)) (r : HRow E) : Bool :=
  !(decide ("Topic" ∈ r.node.labels)) &&
    tl.any (fun t => gl.any (fun g =>
      t.eid == r.nodeEid && g.eid == r.nodeEid &&
        decide (r.combinedScore = alpha * t.score + (1 - alpha) * g.score)))

/-- A trivial score family on a trivial scalar type, for concrete runs
whose behavior does not depend on scores. -/
def constScore : List Unit → Node Unit → Int := fun _ _ => 0

/-- A second trivial score family with a different score type, used to
exhibit score-independence. -/
def constScoreQ : List Unit → Node Unit → ℚ := fun _ _ => 1

/-- Seed node of the `Topic`-chain scenario (`A`, labeled `Topic`). -/
def exA : Node Unit := { id := "A", labels := ["Topic"], emb := none }

/-- First `Topic` chain node. -/
def exT1 : Node Unit := { id := "T1", labels := ["Topic"], emb := none }

/-- Second `Topic` chain node. -/
def exT2 : Node Unit := { id := "T2", labels := ["Topic"], emb := none }

/-- Non-`Topic` endpoint of the chain. -/
def exX : Node Unit := { id := "X", labels := ["Paper"], emb := none }

/-- Edge `A → T1`. -/
def exE1 : Edge := { id := "e1", type := "REL", start := "A", endId := "T1" }

/-- Edge `T1 → T2`. -/
def exE2 : Edge := { id := "e2", type := "REL", start := "T1", endId := "T2" }

/-- Edge `T2 → X`. -/
def exE3 : Edge := { id := "e3", type := "REL", start := "T2", endId := "X" }

/-- Fetch oracle describing the chain `A → T1 → T2 → X` as undirected
one-hop neighborhoods. -/
def exFetch : List String → Except Unit (Option (List (Node Unit) × List Edge)) :=
  fun eids =>
    match eids with
    | ["A"] => .ok (some ([exA, exT1], [exE1]))
    | ["T1"] => .ok (some ([exT1, exA, exT2], [exE1, exE2]))
    | ["T2"] => .ok (some ([exT2, exT1, exX], [exE2, exE3]))
    | ["X"] => .ok (some ([exX, exT2], [exE3]))
    | _ => .ok none

/-- A fetch oracle whose underlying call always raises. -/
def errFetch : List String → Except Unit (Option (List (Node Unit) × List Edge)) :=
  fun _ => .error ()

/-- Single-label candidate with id `a`. -/
def wN1 : Node Int := { id := "a", labels := ["L"], emb := none }

/-- Single-label candidate with id `b`. -/
def wN2 : Node Int := { id := "b", labels := ["L"], emb := none }

/-- Fetch oracle returning the two single-label candidates. -/
def wFetch : List String → Except Unit (Option (List (Node Int) × List Edge)) :=
  fun _ => .ok (some ([wN1, wN2], []))

/-- Score family over `Int` embeddings assigning every node the same
score. -/
def wScore : List Int → Node Int → Int := fun _ _ => 0

/-- A single node with one neighborhood edge, for concrete pruned
results. -/
def wU : Node Unit := { id := "u", labels := ["L"], emb := none }

/-- Fetch oracle returning just `wU`. -/
def okFetchU : List String → Except Unit (Option (List (Node Unit) × List Edge)) :=
  fun _ => .ok (some ([wU], []))

/-- Candidate with stored vector `[1]` carrying only label `B`; its
cosine score against query `[1]` is `1`. -/
noncomputable def ceN1 : Node ℝ := { id := "n1", labels := ["B"], emb := some [1] }

/-- Candidate without a stored vector carrying labels `A` and `B`; its
similarity is `⊥`, but it is the only member of bucket `A`. -/
def ceN2 : Node ℝ := { id := "n2", labels := ["A", "B"], emb := none }

/-- Fetch oracle returning the two candidates above. -/
noncomputable def ceFetch : List String → Except Unit (Option (List (Node ℝ) × List Edge)) :=
  fun _ => .ok (some ([ceN1, ceN2], []))

/-! ## Association-list lemmas -/

theorem alookup_append {β : Type} (k : String) (m₁ m₂ : List (String × β)) :
    alookup k (m₁ ++ m₂) = (alookup k m₁).or (alookup k m₂) := by
  induction m₁ with
  | nil => simp [alookup]
  | cons p t ih =>
    by_cases h : p.1 = k <;> simp [alookup, h, ih]

theorem alookup_mem {β : Type} {k : String} {v : β} {m : List (String × β)}
    (h : alookup k m = some v) : (k, v) ∈ m := by
  induction m with
  | nil => simp [alookup] at h
  | cons p t ih =>
    by_cases hp : p.1 = k
    · simp [alookup, hp] at h
      subst hp h
      simp
    · simp [alookup, hp] at h
      exact List.mem_cons_of_mem _ (ih h)

theorem mem_upsert {β : Type} {p : String × β} {k : String} {v : β} {m : List (String × β)}
    (h : p ∈ upsert k v m) : p = (k, v) ∨ p ∈ m := by
  induction m with
  | nil => simpa [upsert] using h
  | cons q t ih =>
    by_cases hq : q.1 = k
    · simp [upsert, hq] at h
      rcases h with h | h
      · exact Or.inl h
      · exact Or.inr (List.mem_cons_of_mem _ h)
    · simp [upsert, hq] at h
      rcases h with h | h
      · exact Or.inr (by simp [h])
      · rcases ih h with h' | h'
        · exact Or.inl h'
        · exact Or.inr (List.mem_cons_of_mem _ h')

theorem alookup_upsert_self {β : Type} (k : String) (v : β) (m : List (String × β)) :
    alookup k (upsert k v m) = some v := by
  induction m with
  | nil => simp [upsert, alookup]
  | cons q t ih =>
    by_cases hq : q.1 = k <;> simp [upsert, alookup, hq, ih]

theorem alookup_upsert_ne {β : Type} {j k : String} (hjk : j ≠ k) (v : β)
    (m : List (String × β)) : alookup k (upsert j v m) = alookup k m := by
  induction m with
  | nil => simp [upsert, alookup, hjk]
  | cons q t ih =>
    by_cases hq : q.1 = j
    · simp [upsert, alookup, hq, hjk]
    · by_cases hk : q.1 = k <;> simp [upsert, alookup, hq, hk, ih, Ne.symm hjk]

theorem alookup_upsert_isSome {β : Type} {k : String} {m : List (String × β)}
    (j : String) (v : β) (h : (alookup k m).isSome) :
    (alookup k (upsert j v m)).isSome := by
  by_cases hjk : j = k
  · subst hjk
    simp [alookup_upsert_self]
  · rwa [alookup_upsert_ne hjk]

/-! ## First-writer-wins characterization of the accumulator -/

theorem alookup_mergeNodes {E : Type} (nm : List (String × Node E)) (ns : List (Node E))
    (k : String) :
    alookup k (mergeNodes nm ns) =
      (alookup k nm).or (if k = "" then none else ns.find? (fun n => n.id == k)) := by
  induction ns generalizing nm with
  | nil =>
    cases h : alookup k nm <;> simp [mergeNodes, h]
  | cons n t ih =>
    by_cases hid : n.id = ""
    · have hfind : t.find? (fun n => n.id == k) = (n :: t).find? (fun n => n.id == k) ∨ k = "" := by
        by_cases hk : k = ""
        · exact Or.inr hk
        · refine Or.inl ?_
          have : (n.id == k) = false := by
            simp [hid]
            exact fun h => hk (h ▸ hid ▸ rfl)
          simp [List.find?, this]
      rw [mergeNodes, if_pos hid, ih]
      rcases hfind with h | h
      · rw [h]
      · simp [h]
    · rw [mergeNodes, if_neg hid]
      cases hl : alookup n.id nm with
      | some v =>
        rw [ih]
        by_cases hnk : n.id = k
        · subst hnk
          simp [hl]
        · have : (n.id == k) = false := by simpa using hnk
          simp [List.find?, this]
      | none =>
        rw [ih, alookup_append]
        by_cases hnk : n.id = k
        · subst hnk
          simp [hl, alookup, List.find?, hid]
        · have hb : (n.id == k) = false := by simpa using hnk
          cases hknm : alookup k nm <;>
            simp [alookup, hnk, List.find?, hb, hknm]

theorem alookup_mergeEdges (em : List (String × Edge)) (es : List Edge) (k : String) :
    alookup k (mergeEdges em es) =
      (alookup k em).or (if k = "" then none else es.find? (fun e => e.id == k)) := by
  induction es generalizing em with
  | nil =>
    cases h : alookup k em <;> simp [mergeEdges, h]
  | cons e t ih =>
    by_cases hid : e.id = ""
    · have hfind : t.find? (fun e => e.id == k) = (e :: t).find? (fun e => e.id == k) ∨ k = "" := by
        by_cases hk : k = ""
        · exact Or.inr hk
        · refine Or.inl ?_
          have : (e.id == k) = false := by
            simp [hid]
            exact fun h => hk (h ▸ hid ▸ rfl)
          simp [List.find?, this]
      rw [mergeEdges, if_pos hid, ih]
      rcases hfind with h | h
      · rw [h]
      · simp [h]
    · rw [mergeEdges, if_neg hid]
      cases hl : alookup e.id em with
      | some v =>
        rw [ih]
        by_cases hek : e.id = k
        · subst hek
          simp [hl]
        · have : (e.id == k) = false := by simpa using hek
          simp [List.find?, this]
      | none =>
        rw [ih, alookup_append]
        by_cases hek : e.id = k
        · subst hek
          simp [hl, alookup, List.find?, hid]
        · have hb : (e.id == k) = false := by simpa using hek
          cases hkem : alookup k em <;>
            simp [alookup, hek, List.find?, hb, hkem]

/-- C7: within one `two_hop_via_python` run the accumulator is
first-writer-wins: after any sequence of `_dedupe_merge` calls, the value
found under an id is the one already present before the sequence if there
was one, and otherwise the first node (resp. edge) with that truthy id in
the merged batches, regardless of later copies with the same id and
different contents. -/
theorem c7_first_insertion_wins {E : Type} (nm : List (String × Node E))
    (em : List (String × Edge)) (batches : List (List (Node E) × List Edge)) (k : String) :
    alookup k ((batches.foldl (fun acc b => dedupe_merge acc.1 acc.2 b.1 b.2) (nm, em)).1) =
      (alookup k nm).or
        (if k = "" then none else (batches.flatMap Prod.fst).find? (fun n => n.id == k)) ∧
    alookup k ((batches.foldl (fun acc b => dedupe_merge acc.1 acc.2 b.1 b.2) (nm, em)).2) =
      (alookup k em).or
        (if k = "" then none else (batches.flatMap Prod.snd).find? (fun e => e.id == k)) := by
  induction batches generalizing nm em with
  | nil => by_cases hk : k = "" <;> simp [hk, Option.or_none]
  | cons b bs ih =>
    have hstep : List.foldl (fun acc b => dedupe_merge acc.1 acc.2 b.1 b.2) (nm, em) (b :: bs) =
        List.foldl (fun acc b => dedupe_merge acc.1 acc.2 b.1 b.2)
          (mergeNodes nm b.1, mergeEdges em b.2) bs := rfl
    constructor
    · rw [hstep, (ih (mergeNodes nm b.1) (mergeEdges em b.2)).1, alookup_mergeNodes]
      by_cases hk : k = ""
      · simp [hk]
      · simp only [if_neg hk, List.flatMap_cons, List.find?_append, Option.or_assoc]
    · rw [hstep, (ih (mergeNodes nm b.1) (mergeEdges em b.2)).2, alookup_mergeEdges]
      by_cases hk : k = ""
      · simp [hk]
      · simp only [if_neg hk, List.flatMap_cons, List.find?_append, Option.or_assoc]

/-- C9: if the combined similarity-index query inside `hybrid_search`
raises (the oracle is an error), `hybrid_search` returns the empty list —
it never propagates an index-communication error to its caller (it is a
total function of the oracle's outcome). -/
theorem c9_hybrid_error_empty {E : Type} (e : Unit) (alpha : ℚ) (topk : Nat) :
    hybrid_search (Except.error e : Except Unit (List (Cand E) × List (Cand E))) alpha topk
      = [] := rfl

/-! ## Loop unfolding lemmas -/

theorem expandLoop_succ {E σ : Type} [LinearOrder σ] (score : List E → Node E → σ)
    (fetch : List String → Except Unit (Option (List (Node E) × List Edge)))
    (qe : Option (List E)) (budget fuel : Nat) (s : LoopState E) :
    expandLoop score fetch qe budget (fuel + 1) s =
      if s.dq = [] then s
      else expandLoop score fetch qe budget fuel (stepOnce score fetch qe budget s) := rfl

theorem expandLoop_dq_nil {E σ : Type} [LinearOrder σ] (score : List E → Node E → σ)
    (fetch : List String → Except Unit (Option (List (Node E) × List Edge)))
    (qe : Option (List E)) (budget fuel : Nat) {s : LoopState E} (h : s.dq = []) :
    expandLoop score fetch qe budget fuel s = s := by
  cases fuel with
  | zero => rfl
  | succ f => rw [expandLoop_succ, if_pos h]

theorem expandLoop_add {E σ : Type} [LinearOrder σ] (score : List E → Node E → σ)
    (fetch : List String → Except Unit (Option (List (Node E) × List Edge)))
    (qe : Option (List E)) (budget : Nat) (a b : Nat) (s : LoopState E) :
    expandLoop score fetch qe budget (a + b) s =
      expandLoop score fetch qe budget b (expandLoop score fetch qe budget a s) := by
  induction a generalizing s with
  | zero => rw [Nat.zero_add]; rfl
  | succ a ih =>
    rw [Nat.succ_add, expandLoop_succ, expandLoop_succ]
    by_cases h : s.dq = []
    · rw [if_pos h, if_pos h, expandLoop_dq_nil score fetch qe budget b h]
    · rw [if_neg h, if_neg h, ih]

/-! ## Score independence without a query embedding -/

theorem one_hop_none_indep {E σ₁ σ₂ : Type} [LinearOrder σ₁] [LinearOrder σ₂]
    (score₁ : List E → Node E → σ₁) (score₂ : List E → Node E → σ₂)
    (fetch : List String → Except Unit (Option (List (Node E) × List Edge)))
    (eids : List String) (top : Nat) (keep : List String) :
    one_hop_subgraph score₁ fetch eids none top keep =
      one_hop_subgraph score₂ fetch eids none top keep := by
  unfold one_hop_subgraph
  by_cases h : eids = []
  · simp [h]
  · simp only [if_neg h]

theorem stepOnce_none_indep {E σ₁ σ₂ : Type} [LinearOrder σ₁] [LinearOrder σ₂]
    (score₁ : List E → Node E → σ₁) (score₂ : List E → Node E → σ₂)
    (fetch : List String → Except Unit (Option (List (Node E) × List Edge)))
    (budget : Nat) (s : LoopState E) :
    stepOnce score₁ fetch none budget s = stepOnce score₂ fetch none budget s := by
  unfold stepOnce
  cases hdq : s.dq with
  | nil => rfl
  | cons it rest =>
    obtain ⟨cid, cl, cost⟩ := it
    by_cases hc : budget ≤ cost
    · simp [hc]
    · simp only [if_neg hc, mainStep, one_hop_none_indep score₁ score₂ fetch]

theorem expandLoop_none_indep {E σ₁ σ₂ : Type} [LinearOrder σ₁] [LinearOrder σ₂]
    (score₁ : List E → Node E → σ₁) (score₂ : List E → Node E → σ₂)
    (fetch : List String → Except Unit (Option (List (Node E) × List Edge)))
    (budget fuel : Nat) (s : LoopState E) :
    expandLoop score₁ fetch none budget fuel s = expandLoop score₂ fetch none budget fuel s := by
  induction fuel generalizing s with
  | zero => rfl
  | succ f ih =>
    rw [expandLoop_succ, expandLoop_succ]
    by_cases h : s.dq = []
    · rw [if_pos h, if_pos h]
    · rw [if_neg h, if_neg h, stepOnce_none_indep score₁ score₂, ih]

theorem runSeed_none_indep {E σ₁ σ₂ : Type} [LinearOrder σ₁] [LinearOrder σ₂]
    (score₁ : List E → Node E → σ₁) (score₂ : List E → Node E → σ₂)
    (fetch : List String → Except Unit (Option (List (Node E) × List Edge)))
    (fuel : Nat) (p : List (String × Node E) × List (String × Edge)) (seed : Node E) :
    runSeed score₁ fetch none fuel p seed = runSeed score₂ fetch none fuel p seed := by
  unfold runSeed
  by_cases h : seed.id = ""
  · simp [h]
  · simp only [if_neg h, expandLoop_none_indep score₁ score₂ fetch]

theorem two_hop_none_indep {E σ₁ σ₂ : Type} [LinearOrder σ₁] [LinearOrder σ₂]
    (score₁ : List E → Node E → σ₁) (score₂ : List E → Node E → σ₂)
    (fetch : List String → Except Unit (Option (List (Node E) × List Edge)))
    (seeds : List (Node E)) (fuel : Nat) :
    two_hop_via_python score₁ fetch seeds none fuel =
      two_hop_via_python score₂ fetch seeds none fuel := by
  have hfold : ∀ (l : List (Node E)) (p : List (String × Node E) × List (String × Edge)),
      l.foldl (runSeed score₁ fetch none fuel) p = l.foldl (runSeed score₂ fetch none fuel) p := by
    intro l
    induction l with
    | nil => intro p; rfl
    | cons a t ih =>
      intro p
      rw [List.foldl_cons, List.foldl_cons, runSeed_none_indep score₁ score₂, ih]
  unfold two_hop_via_python
  cases seeds with
  | nil => rfl
  | cons a t => simp only [hfold]

/-- C10: when `query_embedding` is `None`, no relevance pruning is
applied: `one_hop_subgraph` returns the fetched neighborhood unchanged
whatever the per-label cap and the protected-id set are, and a
`two_hop_via_python` run without a query embedding does not depend on the
scoring function at all. -/
theorem c10_no_pruning_without_embedding {E σ₁ σ₂ : Type} [LinearOrder σ₁] [LinearOrder σ₂]
    (score₁ : List E → Node E → σ₁) (score₂ : List E → Node E → σ₂)
    (fetch : List String → Except Unit (Option (List (Node E) × List Edge)))
    (eids : List String) (ns : List (Node E)) (es : List Edge) (top : Nat)
    (keep : List String) (seeds : List (Node E)) (fuel : Nat)
    (hf : fetch eids = Except.ok (some (ns, es))) (hne : eids ≠ []) :
    one_hop_subgraph score₁ fetch eids none top keep = (ns, es) ∧
    two_hop_via_python score₁ fetch seeds none fuel =
      two_hop_via_python score₂ fetch seeds none fuel := by
  refine ⟨?_, two_hop_none_indep score₁ score₂ fetch seeds fuel⟩
  simp [one_hop_subgraph, hne, hf]

/-- Witness for C10 at a concrete input: a successful fetch with a
nonempty id list, two different score types. -/
theorem c10_witness :
    one_hop_subgraph constScore okFetchU ["u"] none 0 ["z"] = ([wU], []) ∧
    two_hop_via_python constScore okFetchU [wU] none 3 =
      two_hop_via_python constScoreQ okFetchU [wU] none 3 :=
  c10_no_pruning_without_embedding constScore constScoreQ okFetchU ["u"] [wU] [] 0 ["z"]
    [wU] 3 rfl (by decide)

/-- C8: a fetch failure is converted to the empty neighborhood by
`one_hop_subgraph`, and inside `two_hop_via_python` a failing frontier
fetch loses only that node's expansion: the loop state is unchanged
except that the failing item is consumed, and the traversal continues
with the remaining queue items. -/
theorem c8_fetch_failure_isolated {E σ : Type} [LinearOrder σ]
    (score : List E → Node E → σ)
    (fetch : List String → Except Unit (Option (List (Node E) × List Edge)))
    (qe : Option (List E)) (top : Nat) (keep : List String) (eids : List String)
    (err : Unit) (budget fuel : Nat) (s : LoopState E) (cid : String)
    (cl : List String) (cost : Nat) (rest : List (String × List String × Nat))
    (hf : fetch eids = Except.error err) (hf2 : fetch [cid] = Except.error err)
    (hdq : s.dq = (cid, cl, cost) :: rest) (hcost : cost < budget) :
    one_hop_subgraph score fetch eids qe top keep = ([], []) ∧
    expandLoop score fetch qe budget (fuel + 1) s =
      expandLoop score fetch qe budget fuel { s with dq := rest } := by
  constructor
  · by_cases h : eids = []
    · simp [one_hop_subgraph, h]
    · simp [one_hop_subgraph, h, hf]
  · obtain ⟨b, d, nm, em⟩ := s
    have hd : d = (cid, cl, cost) :: rest := hdq
    subst hd
    have hstep : stepOnce score fetch qe budget ⟨b, (cid, cl, cost) :: rest, nm, em⟩ =
        ⟨b, rest, nm, em⟩ := by
      simp [stepOnce, mainStep, not_le.mpr hcost, one_hop_subgraph, hf2]
    rw [expandLoop_succ, if_neg (by simp), hstep]

/-- Witness for C8 at a concrete input: an always-failing fetch, a
one-item queue. -/
theorem c8_witness :
    one_hop_subgraph constScore errFetch ["q"] none 5 [] = ([], []) ∧
    expandLoop constScore errFetch none 2 (1 + 1)
        ⟨[("A", 0)], [("A", ["Topic"], 0)], [], []⟩ =
      expandLoop constScore errFetch none 2 1
        { (⟨[("A", 0)], [("A", ["Topic"], 0)], [], []⟩ : LoopState Unit) with dq := [] } :=
  c8_fetch_failure_isolated constScore errFetch none 5 [] ["q"] () 2 1
    ⟨[("A", 0)], [("A", ["Topic"], 0)], [], []⟩ "A" ["Topic"] 0 [] rfl rfl rfl (by decide)

/-- C4: on the chain `A --Topic--> T1 --Topic--> T2 --rel--> X` with one
`Topic` seed `A` and budget 2, the zero-cost `Topic`/`Topic` transitions
let the traversal reach `T1` and `T2` at cost 0 and `X` at cost 1, so
the run returns exactly the four nodes and the three connecting edges
(for every fuel beyond the four loop iterations the run needs). -/
theorem c4_topic_chain (fuel : Nat) :
    two_hop_via_python constScore exFetch [exA] none (4 + fuel) =
      ([exA, exT1, exT2, exX], [exE1, exE2, exE3]) := by
  have hrun : expandLoop constScore exFetch none 2 (4 + fuel) (seedInit exA [] []) =
      expandLoop constScore exFetch none 2 4 (seedInit exA [] []) := by
    rw [expandLoop_add]
    exact expandLoop_dq_nil constScore exFetch none 2 fuel (by decide)
  have hshape : two_hop_via_python constScore exFetch [exA] none (4 + fuel) =
      ((expandLoop constScore exFetch none 2 (4 + fuel) (seedInit exA [] [])).nmap.map Prod.snd,
        (expandLoop constScore exFetch none 2 (4 + fuel) (seedInit exA [] [])).emap.map Prod.snd) := rfl
  rw [hshape, hrun]
  decide

/-! ## Permutation lemmas for the stable descending sort -/

theorem insertDesc_perm {α β : Type} [LinearOrder β] (key : α → β) (a : α) (l : List α) :
    (insertDesc key a l).Perm (a :: l) := by
  induction l with
  | nil => exact List.Perm.refl _
  | cons b t ih =>
    unfold insertDesc
    by_cases h : key b < key a
    · rw [if_pos h]
    · rw [if_neg h]
      exact (ih.cons b).trans (List.Perm.swap a b t)

theorem sortDesc_perm {α β : Type} [LinearOrder β] (key : α → β) (l : List α) :
    (sortDesc key l).Perm l := by
  have h : ∀ (l acc : List α),
      (l.foldl (fun acc a => insertDesc key a acc) acc).Perm (acc ++ l) := by
    intro l
    induction l with
    | nil => intro acc; simp
    | cons a t ih =>
      intro acc
      rw [List.foldl_cons]
      refine (ih (insertDesc key a acc)).trans ?_
      refine (List.Perm.append_right t (insertDesc_perm key a acc)).trans ?_
      exact List.perm_middle.symm
  simpa [sortDesc] using h l []

/-- C5: every row returned by `hybrid_search` arises from the strict
inner join of the two candidate rankings — its id appears in both lists,
it does not carry the `Topic` label, and its combined score is
`alpha * textScore + (1 - alpha) * graphScore` of a joined pair; ids
found by only one index are dropped. -/
theorem c5_fusion_inner_join {E : Type} (alpha : ℚ) (topk : Nat) (tl gl : List (Cand E)) :
    (hybrid_search (Except.ok (tl, gl)) alpha topk).all (fusionRowOk alpha tl gl) = true := by
  rw [List.all_eq_true]
  intro r hr
  have hmem : r ∈ fuseRows alpha topk tl gl := hr
  simp only [fuseRows] at hmem
  have h2 := List.mem_of_mem_take hmem
  have h3 := (sortDesc_perm (fun r : HRow E => r.combinedScore) _).mem_iff.mp h2
  obtain ⟨p, hpk, hrp⟩ := List.mem_map.mp h3
  obtain ⟨hpj, htop⟩ := List.mem_filter.mp hpk
  obtain ⟨t, ht, hpf⟩ := List.mem_flatMap.mp hpj
  obtain ⟨g, hg, hif⟩ := List.mem_filterMap.mp hpf
  by_cases heq : t.eid = g.eid
  · rw [if_pos heq] at hif
    have hp : p = (t, g) := (Option.some_injective _ hif).symm
    subst hp
    subst hrp
    have htop' : "Topic" ∉ t.node.labels := by simpa using htop
    simp only [fusionRowOk, List.any_eq_true, Bool.and_eq_true, Bool.not_eq_true',
      decide_eq_false_iff_not, beq_iff_eq, decide_eq_true_eq]
    exact ⟨htop', t, ht, g, hg, ⟨rfl, heq.symm⟩, rfl⟩
  · rw [if_neg heq] at hif
    exact absurd hif (by simp)

/-! ## Membership and lookup lemmas for the accumulator merge -/

theorem mem_mergeNodes {E : Type} {p : String × Node E} {nm : List (String × Node E)}
    {ns : List (Node E)} (h : p ∈ mergeNodes nm ns) :
    p ∈ nm ∨ ∃ n, n ∈ ns ∧ p = (n.id, n) := by
  induction ns generalizing nm with
  | nil => exact Or.inl h
  | cons n t ih =>
    by_cases hid : n.id = ""
    · rw [mergeNodes, if_pos hid] at h
      rcases ih h with h' | ⟨m, hm, hp⟩
      · exact Or.inl h'
      · exact Or.inr ⟨m, List.mem_cons_of_mem _ hm, hp⟩
    · rw [mergeNodes, if_neg hid] at h
      cases hl : alookup n.id nm with
      | some v =>
        rw [hl] at h
        rcases ih h with h' | ⟨m, hm, hp⟩
        · exact Or.inl h'
        · exact Or.inr ⟨m, List.mem_cons_of_mem _ hm, hp⟩
      | none =>
        rw [hl] at h
        rcases ih h with h' | ⟨m, hm, hp⟩
        · rcases List.mem_append.mp h' with h'' | h''
          · exact Or.inl h''
          · exact Or.inr ⟨n, List.mem_cons_self _ _, by simpa using h''⟩
        · exact Or.inr ⟨m, List.mem_cons_of_mem _ hm, hp⟩

theorem mem_mergeEdges {p : String × Edge} {em : List (String × Edge)}
    {es : List Edge} (h : p ∈ mergeEdges em es) :
    p ∈ em ∨ ∃ e, e ∈ es ∧ p = (e.id, e) := by
  induction es generalizing em with
  | nil => exact Or.inl h
  | cons e t ih =>
    by_cases hid : e.id = ""
    · rw [mergeEdges, if_pos hid] at h
      rcases ih h with h' | ⟨m, hm, hp⟩
      · exact Or.inl h'
      · exact Or.inr ⟨m, List.mem_cons_of_mem _ hm, hp⟩
    · rw [mergeEdges, if_neg hid] at h
      cases hl : alookup e.id em with
      | some v =>
        rw [hl] at h
        rcases ih h with h' | ⟨m, hm, hp⟩
        · exact Or.inl h'
        · exact Or.inr ⟨m, List.mem_cons_of_mem _ hm, hp⟩
      | none =>
        rw [hl] at h
        rcases ih h with h' | ⟨m, hm, hp⟩
        · rcases List.mem_append.mp h' with h'' | h''
          · exact Or.inl h''
          · exact Or.inr ⟨e, List.mem_cons_self _ _, by simpa using h''⟩
        · exact Or.inr ⟨m, List.mem_cons_of_mem _ hm, hp⟩

theorem alookup_mergeNodes_isSome_mono {E : Type} {k : String}
    {nm : List (String × Node E)} (ns : List (Node E))
    (h : (alookup k nm).isSome) : (alookup k (mergeNodes nm ns)).isSome := by
  rw [alookup_mergeNodes]
  cases hl : alookup k nm with
  | none => rw [hl] at h; simp at h
  | some v => simp

theorem alookup_mergeEdges_isSome_mono {k : String}
    {em : List (String × Edge)} (es : List Edge)
    (h : (alookup k em).isSome) : (alookup k (mergeEdges em es)).isSome := by
  rw [alookup_mergeEdges]
  cases hl : alookup k em with
  | none => rw [hl] at h; simp at h
  | some v => simp

theorem alookup_mergeNodes_of_mem {E : Type} {n : Node E} {ns : List (Node E)}
    (nm : List (String × Node E)) (hn : n ∈ ns) (hne : n.id ≠ "") :
    (alookup n.id (mergeNodes nm ns)).isSome := by
  rw [alookup_mergeNodes]
  cases hl : alookup n.id nm with
  | some v => simp
  | none =>
    rw [if_neg hne]
    simp only [Option.none_or, List.find?_isSome]
    exact ⟨n, hn, by simp⟩

/-! ## Invariants of the neighbor-processing fold -/

theorem processNeighbor_invariants {E : Type} (budget : Nat) (cl : List String) (cost : Nat)
    (nbors : List (Node E)) (hbig : budget < 10 ^ 9) (acc : NbAcc) (nb : Node E)
    (hP : ∀ p ∈ acc.best, p.2 ≤ budget)
    (hQ : ∀ a ∈ acc.allowed, (alookup a acc.best).isSome)
    (hN : ∀ a ∈ acc.allowed, a ≠ "") :
    (∀ p ∈ (processNeighbor budget cl cost nbors acc nb).best, p.2 ≤ budget) ∧
    (∀ a ∈ (processNeighbor budget cl cost nbors acc nb).allowed,
      (alookup a (processNeighbor budget cl cost nbors acc nb).best).isSome) ∧
    (∀ a ∈ (processNeighbor budget cl cost nbors acc nb).allowed, a ≠ "") ∧
    (∀ k, (alookup k acc.best).isSome →
      (alookup k (processNeighbor budget cl cost nbors acc nb).best).isSome) := by
  unfold processNeighbor
  by_cases hid : nb.id = ""
  · simp only [if_pos hid]
    exact ⟨hP, hQ, hN, fun k hk => hk⟩
  · simp only [if_neg hid]
    by_cases hle : cost + transition_cost cl (labelById nbors nb.id) ≤ budget
    · simp only [if_pos hle]
      by_cases himp : cost + transition_cost cl (labelById nbors nb.id) <
          (alookup nb.id acc.best).getD (10 ^ 9)
      · simp only [if_pos himp]
        refine ⟨?_, ?_, ?_, ?_⟩
        · intro p hp
          rcases mem_upsert hp with h | h
          · rw [h]; exact hle
          · exact hP p h
        · intro a ha
          rcases List.mem_insert_iff.mp ha with h | h
          · subst h
            rw [alookup_upsert_self]
            rfl
          · exact alookup_upsert_isSome _ _ (hQ a h)
        · intro a ha
          rcases List.mem_insert_iff.mp ha with h | h
          · subst h; exact hid
          · exact hN a h
        · intro k hk
          exact alookup_upsert_isSome _ _ hk
      · simp only [if_neg himp]
        refine ⟨hP, ?_, ?_, fun k hk => hk⟩
        · intro a ha
          rcases List.mem_insert_iff.mp ha with h | h
          · subst h
            cases hl : alookup nb.id acc.best with
            | some v => simp
            | none =>
              rw [hl] at himp
              simp only [Option.getD_none, not_lt] at himp
              omega
          · exact hQ a h
        · intro a ha
          rcases List.mem_insert_iff.mp ha with h | h
          · subst h; exact hid
          · exact hN a h
    · simp only [if_neg hle]
      exact ⟨hP, hQ, hN, fun k hk => hk⟩

theorem foldNeighbors_invariants {E : Type} (budget : Nat) (cl : List String) (cost : Nat)
    (nbors : List (Node E)) (hbig : budget < 10 ^ 9) (l : List (Node E)) (acc : NbAcc)
    (hP : ∀ p ∈ acc.best, p.2 ≤ budget)
    (hQ : ∀ a ∈ acc.allowed, (alookup a acc.best).isSome)
    (hN : ∀ a ∈ acc.allowed, a ≠ "") :
    (∀ p ∈ (l.foldl (processNeighbor budget cl cost nbors) acc).best, p.2 ≤ budget) ∧
    (∀ a ∈ (l.foldl (processNeighbor budget cl cost nbors) acc).allowed,
      (alookup a (l.foldl (processNeighbor budget cl cost nbors) acc).best).isSome) ∧
    (∀ a ∈ (l.foldl (processNeighbor budget cl cost nbors) acc).allowed, a ≠ "") ∧
    (∀ k, (alookup k acc.best).isSome →
      (alookup k (l.foldl (processNeighbor budget cl cost nbors) acc).best).isSome) := by
  induction l generalizing acc with
  | nil => exact ⟨hP, hQ, hN, fun k hk => hk⟩
  | cons nb t ih =>
    rw [List.foldl_cons]
    obtain ⟨hP', hQ', hN', hM'⟩ :=
      processNeighbor_invariants budget cl cost nbors hbig acc nb hP hQ hN
    obtain ⟨hP'', hQ'', hN'', hM''⟩ :=
      ih (processNeighbor budget cl cost nbors acc nb) hP' hQ' hN'
    exact ⟨hP'', hQ'', hN'', fun k hk => hM'' k (hM' k hk)⟩

/-! ## Budget invariant (C2) -/

theorem mainStep_budget_inv {E σ : Type} [LinearOrder σ] (score : List E → Node E → σ)
    (fetch : List String → Except Unit (Option (List (Node E) × List Edge)))
    (qe : Option (List E)) (budget : Nat) (hbig : budget < 10 ^ 9)
    (initKeys : List String) (b : List (String × Nat)) (cid : String)
    (cl : List String) (cost : Nat) (rest : List (String × List String × Nat))
    (nm : List (String × Node E)) (em : List (String × Edge))
    (hP : ∀ p ∈ b, p.2 ≤ budget)
    (hI : ∀ p ∈ nm, p.1 ∈ initKeys ∨ (alookup p.1 b).isSome) :
    (∀ p ∈ (mainStep score fetch qe budget b cid cl cost rest nm em).best, p.2 ≤ budget) ∧
    (∀ p ∈ (mainStep score fetch qe budget b cid cl cost rest nm em).nmap,
      p.1 ∈ initKeys ∨
        (alookup p.1 (mainStep score fetch qe budget b cid cl cost rest nm em).best).isSome) := by
  obtain ⟨hP', hQ', hN', hM'⟩ :=
    foldNeighbors_invariants budget cl cost (one_hop_subgraph score fetch [cid] qe 5 [cid]).1
      hbig (one_hop_subgraph score fetch [cid] qe 5 [cid]).1 ⟨[], b, rest⟩ hP
      (fun a ha => absurd ha (List.not_mem_nil a))
      (fun a ha => absurd ha (List.not_mem_nil a))
  unfold mainStep
  by_cases hall : ((one_hop_subgraph score fetch [cid] qe 5 [cid]).1.foldl
      (processNeighbor budget cl cost (one_hop_subgraph score fetch [cid] qe 5 [cid]).1)
      ⟨[], b, rest⟩).allowed = []
  · rw [if_pos hall]
    refine ⟨hP', ?_⟩
    intro p hp
    rcases hI p hp with h | h
    · exact Or.inl h
    · exact Or.inr (hM' p.1 h)
  · rw [if_neg hall]
    refine ⟨hP', ?_⟩
    intro p hp
    rcases mem_mergeNodes hp with h | ⟨n, hn, hpn⟩
    · rcases hI p h with h' | h'
      · exact Or.inl h'
      · exact Or.inr (hM' p.1 h')
    · subst hpn
      have hmem : n.id ∈ ((one_hop_subgraph score fetch [cid] qe 5 [cid]).1.foldl
          (processNeighbor budget cl cost (one_hop_subgraph score fetch [cid] qe 5 [cid]).1)
          ⟨[], b, rest⟩).allowed := by
        have := (List.mem_filter.mp hn).2
        simpa using this
      exact Or.inr (hQ' n.id hmem)

theorem stepOnce_budget_inv {E σ : Type} [LinearOrder σ] (score : List E → Node E → σ)
    (fetch : List String → Except Unit (Option (List (Node E) × List Edge)))
    (qe : Option (List E)) (budget : Nat) (hbig : budget < 10 ^ 9)
    (initKeys : List String) (s : LoopState E)
    (hP : ∀ p ∈ s.best, p.2 ≤ budget)
    (hI : ∀ p ∈ s.nmap, p.1 ∈ initKeys ∨ (alookup p.1 s.best).isSome) :
    (∀ p ∈ (stepOnce score fetch qe budget s).best, p.2 ≤ budget) ∧
    (∀ p ∈ (stepOnce score fetch qe budget s).nmap,
      p.1 ∈ initKeys ∨ (alookup p.1 (stepOnce score fetch qe budget s).best).isSome) := by
  obtain ⟨b, d, nm, em⟩ := s
  cases d with
  | nil => exact ⟨hP, hI⟩
  | cons it rest =>
    obtain ⟨cid, cl, cost⟩ := it
    by_cases hc : budget ≤ cost
    · have hskip : stepOnce score fetch qe budget ⟨b, (cid, cl, cost) :: rest, nm, em⟩ =
          ⟨b, rest, nm, em⟩ := by
        simp [stepOnce, hc]
      rw [hskip]
      exact ⟨hP, hI⟩
    · have hmain : stepOnce score fetch qe budget ⟨b, (cid, cl, cost) :: rest, nm, em⟩ =
          mainStep score fetch qe budget b cid cl cost rest nm em := by
        simp [stepOnce, hc]
      rw [hmain]
      exact mainStep_budget_inv score fetch qe budget hbig initKeys b cid cl cost rest nm em hP hI

theorem expandLoop_budget_inv {E σ : Type} [LinearOrder σ] (score : List E → Node E → σ)
    (fetch : List String → Except Unit (Option (List (Node E) × List Edge)))
    (qe : Option (List E)) (budget : Nat) (hbig : budget < 10 ^ 9)
    (initKeys : List String) (fuel : Nat) (s : LoopState E)
    (hP : ∀ p ∈ s.best, p.2 ≤ budget)
    (hI : ∀ p ∈ s.nmap, p.1 ∈ initKeys ∨ (alookup p.1 s.best).isSome) :
    (∀ p ∈ (expandLoop score fetch qe budget fuel s).best, p.2 ≤ budget) ∧
    (∀ p ∈ (expandLoop score fetch qe budget fuel s).nmap,
      p.1 ∈ initKeys ∨
        (alookup p.1 (expandLoop score fetch qe budget fuel s).best).isSome) := by
  induction fuel generalizing s with
  | zero => exact ⟨hP, hI⟩
  | succ f ih =>
    rw [expandLoop_succ]
    by_cases h : s.dq = []
    · rw [if_pos h]
      exact ⟨hP, hI⟩
    · rw [if_neg h]
      obtain ⟨hP', hI'⟩ := stepOnce_budget_inv score fetch qe budget hbig initKeys s hP hI
      exact ih (stepOnce score fetch qe budget s) hP' hI'

/-- C2: for one seed's expansion, every node id in the final accumulator
either predates the seed's traversal or has a recorded `best_cost` of at
most the seed's budget (`_hop_budget_for`, i.e. 2); and a frontier item
whose `cost_so_far` has reached the budget is skipped without expansion —
the step only consumes it from the queue. -/
theorem c2_budget_monotonicity {E σ : Type} [LinearOrder σ] (score : List E → Node E → σ)
    (fetch : List String → Except Unit (Option (List (Node E) × List Edge)))
    (qe : Option (List E)) (fuel : Nat) (seed : Node E)
    (nm : List (String × Node E)) (em : List (String × Edge))
    (budget2 : Nat) (s : LoopState E) (cid : String) (cl : List String) (cost : Nat)
    (rest : List (String × List String × Nat))
    (hdq : s.dq = (cid, cl, cost) :: rest) (hcost : budget2 ≤ cost) :
    budgetOk (hop_budget_for seed.labels) (nm.map Prod.fst)
        (expandLoop score fetch qe (hop_budget_for seed.labels) fuel (seedInit seed nm em))
      = true ∧
    stepOnce score fetch qe budget2 s = { s with dq := rest } := by
  constructor
  · have hP0 : ∀ p ∈ (seedInit seed nm em).best, p.2 ≤ hop_budget_for seed.labels := by
      intro p hp
      have : p = (seed.id, 0) := by simpa [seedInit] using hp
      rw [this]
      simp [hop_budget_for]
    have hI0 : ∀ p ∈ (seedInit seed nm em).nmap,
        p.1 ∈ nm.map Prod.fst ∨ (alookup p.1 (seedInit seed nm em).best).isSome := by
      intro p hp
      have hp' : p ∈ mergeNodes nm [seed] := hp
      rcases mem_mergeNodes hp' with h | ⟨n, hn, hpn⟩
      · exact Or.inl (List.mem_map_of_mem Prod.fst h)
      · have : n = seed := by simpa using hn
        subst this
        subst hpn
        refine Or.inr ?_
        simp [seedInit, alookup]
    obtain ⟨hPf, hIf⟩ := expandLoop_budget_inv score fetch qe (hop_budget_for seed.labels)
      (by norm_num [hop_budget_for]) (nm.map Prod.fst) fuel (seedInit seed nm em) hP0 hI0
    rw [budgetOk, List.all_eq_true]
    intro p hp
    rcases hIf p hp with h | h
    · simp [h]
    · obtain ⟨c, hc⟩ := Option.isSome_iff_exists.mp h
      have hcle : c ≤ hop_budget_for seed.labels := hPf (p.1, c) (alookup_mem hc)
      simp [hc, hcle]
  · obtain ⟨b, d, nm', em'⟩ := s
    have hd : d = (cid, cl, cost) :: rest := hdq
    subst hd
    simp [stepOnce, hcost]

/-- Witness for C2 at a concrete input: the `Topic`-chain run with empty
initial accumulator, and a skip step on a one-item queue whose cost
exhausts the budget. -/
theorem c2_witness :
    budgetOk (hop_budget_for exA.labels) (([] : List (String × Node Unit)).map Prod.fst)
        (expandLoop constScore exFetch none (hop_budget_for exA.labels) 10 (seedInit exA [] []))
      = true ∧
    stepOnce constScore exFetch none 2
        (⟨[], [("z", ["L"], 7)], [], []⟩ : LoopState Unit) =
      { (⟨[], [("z", ["L"], 7)], [], []⟩ : LoopState Unit) with dq := [] } :=
  c2_budget_monotonicity constScore exFetch none 10 exA [] [] 2
    ⟨[], [("z", ["L"], 7)], [], []⟩ "z" ["L"] 7 [] rfl (by decide)

/-! ## No-dangling-edges invariant (C3) -/

theorem processNeighbor_allowed_ne {E : Type} (budget : Nat) (cl : List String) (cost : Nat)
    (nbors : List (Node E)) (acc : NbAcc) (nb : Node E)
    (hN : ∀ a ∈ acc.allowed, a ≠ "") :
    ∀ a ∈ (processNeighbor budget cl cost nbors acc nb).allowed, a ≠ "" := by
  unfold processNeighbor
  by_cases hid : nb.id = ""
  · simp only [if_pos hid]
    exact hN
  · simp only [if_neg hid]
    by_cases hle : cost + transition_cost cl (labelById nbors nb.id) ≤ budget
    · simp only [if_pos hle]
      by_cases himp : cost + transition_cost cl (labelById nbors nb.id) <
          (alookup nb.id acc.best).getD (10 ^ 9)
      · simp only [if_pos himp]
        intro a ha
        rcases List.mem_insert_iff.mp ha with h | h
        · subst h; exact hid
        · exact hN a h
      · simp only [if_neg himp]
        intro a ha
        rcases List.mem_insert_iff.mp ha with h | h
        · subst h; exact hid
        · exact hN a h
    · simp only [if_neg hle]
      exact hN

theorem foldNeighbors_allowed_ne {E : Type} (budget : Nat) (cl : List String) (cost : Nat)
    (nbors : List (Node E)) (l : List (Node E)) (acc : NbAcc)
    (hN : ∀ a ∈ acc.allowed, a ≠ "") :
    ∀ a ∈ (l.foldl (processNeighbor budget cl cost nbors) acc).allowed, a ≠ "" := by
  induction l generalizing acc with
  | nil => exact hN
  | cons nb t ih =>
    rw [List.foldl_cons]
    exact ih _ (processNeighbor_allowed_ne budget cl cost nbors acc nb hN)

theorem mainStep_edge_inv {E σ : Type} [LinearOrder σ] (score : List E → Node E → σ)
    (fetch : List String → Except Unit (Option (List (Node E) × List Edge)))
    (qe : Option (List E)) (budget : Nat) (b : List (String × Nat)) (cid : String)
    (cl : List String) (cost : Nat) (rest : List (String × List String × Nat))
    (nm : List (String × Node E)) (em : List (String × Edge))
    (hK : ∀ p ∈ nm, p.2.id = p.1)
    (hE : ∀ p ∈ em, (alookup p.2.start nm).isSome ∧ (alookup p.2.endId nm).isSome) :
    (∀ p ∈ (mainStep score fetch qe budget b cid cl cost rest nm em).nmap, p.2.id = p.1) ∧
    (∀ p ∈ (mainStep score fetch qe budget b cid cl cost rest nm em).emap,
      (alookup p.2.start (mainStep score fetch qe budget b cid cl cost rest nm em).nmap).isSome ∧
      (alookup p.2.endId (mainStep score fetch qe budget b cid cl cost rest nm em).nmap).isSome) := by
  have hN' := foldNeighbors_allowed_ne budget cl cost
    (one_hop_subgraph score fetch [cid] qe 5 [cid]).1
    (one_hop_subgraph score fetch [cid] qe 5 [cid]).1 ⟨[], b, rest⟩
    (fun a ha => absurd ha (List.not_mem_nil a))
  unfold mainStep
  by_cases hall : ((one_hop_subgraph score fetch [cid] qe 5 [cid]).1.foldl
      (processNeighbor budget cl cost (one_hop_subgraph score fetch [cid] qe 5 [cid]).1)
      ⟨[], b, rest⟩).allowed = []
  · rw [if_pos hall]
    exact ⟨hK, hE⟩
  · rw [if_neg hall]
    constructor
    · intro p hp
      rcases mem_mergeNodes hp with h | ⟨n, hn, hpn⟩
      · exact hK p h
      · subst hpn; rfl
    · intro p hp
      rcases mem_mergeEdges hp with h | ⟨e, he, hpe⟩
      · obtain ⟨h1, h2⟩ := hE p h
        exact ⟨alookup_mergeNodes_isSome_mono _ h1, alookup_mergeNodes_isSome_mono _ h2⟩
      · subst hpe
        obtain ⟨hef, hpred⟩ := List.mem_filter.mp he
        rw [Bool.and_eq_true, decide_eq_true_eq, decide_eq_true_eq] at hpred
        obtain ⟨h1, h2⟩ := hpred
        constructor
        · obtain ⟨n, hn, hnid⟩ := List.mem_map.mp h1
          have hne : n.id ≠ "" := hN' n.id (by simpa using (List.mem_filter.mp hn).2)
          rw [← hnid]
          exact alookup_mergeNodes_of_mem nm hn hne
        · obtain ⟨n, hn, hnid⟩ := List.mem_map.mp h2
          have hne : n.id ≠ "" := hN' n.id (by simpa using (List.mem_filter.mp hn).2)
          rw [← hnid]
          exact alookup_mergeNodes_of_mem nm hn hne

theorem stepOnce_edge_inv {E σ : Type} [LinearOrder σ] (score : List E → Node E → σ)
    (fetch : List String → Except Unit (Option (List (Node E) × List Edge)))
    (qe : Option (List E)) (budget : Nat) (s : LoopState E)
    (hK : ∀ p ∈ s.nmap, p.2.id = p.1)
    (hE : ∀ p ∈ s.emap,
      (alookup p.2.start s.nmap).isSome ∧ (alookup p.2.endId s.nmap).isSome) :
    (∀ p ∈ (stepOnce score fetch qe budget s).nmap, p.2.id = p.1) ∧
    (∀ p ∈ (stepOnce score fetch qe budget s).emap,
      (alookup p.2.start (stepOnce score fetch qe budget s).nmap).isSome ∧
      (alookup p.2.endId (stepOnce score fetch qe budget s).nmap).isSome) := by
  obtain ⟨b, d, nm, em⟩ := s
  cases d with
  | nil => exact ⟨hK, hE⟩
  | cons it rest =>
    obtain ⟨cid, cl, cost⟩ := it
    by_cases hc : budget ≤ cost
    · have hskip : stepOnce score fetch qe budget ⟨b, (cid, cl, cost) :: rest, nm, em⟩ =
          ⟨b, rest, nm, em⟩ := by
        simp [stepOnce, hc]
      rw [hskip]
      exact ⟨hK, hE⟩
    · have hmain : stepOnce score fetch qe budget ⟨b, (cid, cl, cost) :: rest, nm, em⟩ =
          mainStep score fetch qe budget b cid cl cost rest nm em := by
        simp [stepOnce, hc]
      rw [hmain]
      exact mainStep_edge_inv score fetch qe budget b cid cl cost rest nm em hK hE

theorem expandLoop_edge_inv {E σ : Type} [LinearOrder σ] (score : List E → Node E → σ)
    (fetch : List String → Except Unit (Option (List (Node E) × List Edge)))
    (qe : Option (List E)) (budget fuel : Nat) (s : LoopState E)
    (hK : ∀ p ∈ s.nmap, p.2.id = p.1)
    (hE : ∀ p ∈ s.emap,
      (alookup p.2.start s.nmap).isSome ∧ (alookup p.2.endId s.nmap).isSome) :
    (∀ p ∈ (expandLoop score fetch qe budget fuel s).nmap, p.2.id = p.1) ∧
    (∀ p ∈ (expandLoop score fetch qe budget fuel s).emap,
      (alookup p.2.start (expandLoop score fetch qe budget fuel s).nmap).isSome ∧
      (alookup p.2.endId (expandLoop score fetch qe budget fuel s).nmap).isSome) := by
  induction fuel generalizing s with
  | zero => exact ⟨hK, hE⟩
  | succ f ih =>
    rw [expandLoop_succ]
    by_cases h : s.dq = []
    · rw [if_pos h]
      exact ⟨hK, hE⟩
    · rw [if_neg h]
      obtain ⟨hK', hE'⟩ := stepOnce_edge_inv score fetch qe budget s hK hE
      exact ih (stepOnce score fetch qe budget s) hK' hE'

theorem runSeed_edge_inv {E σ : Type} [LinearOrder σ] (score : List E → Node E → σ)
    (fetch : List String → Except Unit (Option (List (Node E) × List Edge)))
    (qe : Option (List E)) (fuel : Nat)
    (p : List (String × Node E) × List (String × Edge)) (seed : Node E)
    (hK : ∀ q ∈ p.1, q.2.id = q.1)
    (hE : ∀ q ∈ p.2, (alookup q.2.start p.1).isSome ∧ (alookup q.2.endId p.1).isSome) :
    (∀ q ∈ (runSeed score fetch qe fuel p seed).1, q.2.id = q.1) ∧
    (∀ q ∈ (runSeed score fetch qe fuel p seed).2,
      (alookup q.2.start (runSeed score fetch qe fuel p seed).1).isSome ∧
      (alookup q.2.endId (runSeed score fetch qe fuel p seed).1).isSome) := by
  unfold runSeed
  by_cases hs : seed.id = ""
  · rw [if_pos hs]
    exact ⟨hK, hE⟩
  · rw [if_neg hs]
    have hK0 : ∀ q ∈ (seedInit seed p.1 p.2).nmap, q.2.id = q.1 := by
      intro q hq
      rcases mem_mergeNodes hq with h | ⟨n, hn, hqn⟩
      · exact hK q h
      · subst hqn; rfl
    have hE0 : ∀ q ∈ (seedInit seed p.1 p.2).emap,
        (alookup q.2.start (seedInit seed p.1 p.2).nmap).isSome ∧
        (alookup q.2.endId (seedInit seed p.1 p.2).nmap).isSome := by
      intro q hq
      obtain ⟨h1, h2⟩ := hE q hq
      exact ⟨alookup_mergeNodes_isSome_mono _ h1, alookup_mergeNodes_isSome_mono _ h2⟩
    exact expandLoop_edge_inv score fetch qe (hop_budget_for seed.labels) fuel
      (seedInit seed p.1 p.2) hK0 hE0

theorem noDangling_prune {E σ : Type} [LinearOrder σ] (score : Node E → σ) (top : Nat)
    (keep : List String) (ns : List (Node E)) (es : List Edge) :
    noDangling (pruneByEmbedding score top keep ns es) = true := by
  rw [noDangling, List.all_eq_true]
  intro e he
  obtain ⟨hes, hpred⟩ := List.mem_filter.mp he
  rw [Bool.and_eq_true, decide_eq_true_eq, decide_eq_true_eq] at hpred
  obtain ⟨h1, h2⟩ := hpred
  rw [Bool.and_eq_true, List.any_eq_true, List.any_eq_true]
  constructor
  · obtain ⟨n, hn, hnid⟩ := List.mem_map.mp h1
    exact ⟨n, (List.mem_filter.mp hn).1, by simp [hnid]⟩
  · obtain ⟨n, hn, hnid⟩ := List.mem_map.mp h2
    exact ⟨n, (List.mem_filter.mp hn).1, by simp [hnid]⟩

/-- C3: no dangling edges — every edge of a pruned `one_hop_subgraph`
result and every edge of a `two_hop_via_python` result has both its
`start` and its `end` id carried by a node of the same result. -/
theorem c3_no_dangling_edges {E σ : Type} [LinearOrder σ] (score : List E → Node E → σ)
    (fetch : List String → Except Unit (Option (List (Node E) × List Edge)))
    (eids : List String) (q : List E) (top : Nat) (keep : List String)
    (seeds : List (Node E)) (qe : Option (List E)) (fuel : Nat) :
    noDangling (one_hop_subgraph score fetch eids (some q) top keep) = true ∧
    noDangling (two_hop_via_python score fetch seeds qe fuel) = true := by
  constructor
  · by_cases h : eids = []
    · simp [one_hop_subgraph, h, noDangling]
    · unfold one_hop_subgraph
      rw [if_neg h]
      cases hf : fetch eids with
      | error err => simp [noDangling]
      | ok o =>
        cases o with
        | none => simp [noDangling]
        | some pr =>
          obtain ⟨ns, es⟩ := pr
          exact noDangling_prune (score q) top keep ns es
  · cases seeds with
    | nil => simp [two_hop_via_python, noDangling]
    | cons s0 st =>
      have hfold : ∀ (l : List (Node E)) (p : List (String × Node E) × List (String × Edge)),
          (∀ q' ∈ p.1, q'.2.id = q'.1) →
          (∀ q' ∈ p.2,
            (alookup q'.2.start p.1).isSome ∧ (alookup q'.2.endId p.1).isSome) →
          (∀ q' ∈ (l.foldl (runSeed score fetch qe fuel) p).1, q'.2.id = q'.1) ∧
          (∀ q' ∈ (l.foldl (runSeed score fetch qe fuel) p).2,
            (alookup q'.2.start (l.foldl (runSeed score fetch qe fuel) p).1).isSome ∧
            (alookup q'.2.endId (l.foldl (runSeed score fetch qe fuel) p).1).isSome) := by
        intro l
        induction l with
        | nil => intro p hK hE; exact ⟨hK, hE⟩
        | cons a t ih =>
          intro p hK hE
          rw [List.foldl_cons]
          obtain ⟨hK', hE'⟩ := runSeed_edge_inv score fetch qe fuel p a hK hE
          exact ih _ hK' hE'
      obtain ⟨hK, hE⟩ := hfold (s0 :: st) ([], [])
        (fun q' hq' => absurd hq' (List.not_mem_nil q'))
        (fun q' hq' => absurd hq' (List.not_mem_nil q'))
      have hres : two_hop_via_python score fetch (s0 :: st) qe fuel =
          (((s0 :: st).foldl (runSeed score fetch qe fuel) ([], [])).1.map Prod.snd,
            ((s0 :: st).foldl (runSeed score fetch qe fuel) ([], [])).2.map Prod.snd) := rfl
      rw [hres, noDangling, List.all_eq_true]
      intro e he
      obtain ⟨pe, hpe, hpe2⟩ := List.mem_map.mp he
      subst hpe2
      obtain ⟨h1, h2⟩ := hE pe hpe
      rw [Bool.and_eq_true, List.any_eq_true, List.any_eq_true]
      constructor
      · obtain ⟨n, hn⟩ := Option.isSome_iff_exists.mp h1
        have hmem := alookup_mem hn
        have hid : n.id = pe.2.start := hK (pe.2.start, n) hmem
        exact ⟨n, List.mem_map_of_mem Prod.snd hmem, by simp [hid]⟩
      · obtain ⟨n, hn⟩ := Option.isSome_iff_exists.mp h2
        have hmem := alookup_mem hn
        have hid : n.id = pe.2.endId := hK (pe.2.endId, n) hmem
        exact ⟨n, List.mem_map_of_mem Prod.snd hmem, by simp [hid]⟩

/-! ## Cosine similarity (C6) -/

/-- C6 (amended): the pruner's similarity is `⊥` (`-inf`) for a missing
or empty stored vector; otherwise it is
`dot(v↾m, q↾m) / (‖v↾m‖ · ‖q‖)` with `m` the shorter of the two lengths —
the stored vector is truncated for the dot product and its own norm, but
the query norm is taken over the FULL query vector; the claim's
both-truncated formula agrees exactly when the query is not longer than
the stored vector. -/
theorem c6_cosine_truncation (q v : List ℝ) (hv : v ≠ []) (hq : q.length ≤ v.length) :
    cosine q none = ⊥ ∧
    cosine q (some []) = ⊥ ∧
    cosine q (some v) =
      ((vecDot (v.take (min v.length q.length)) (q.take (min v.length q.length)) /
          (orOne (Real.sqrt (((v.take (min v.length q.length)).map (fun x => x * x)).sum)) *
            qnorm q) : ℝ) : WithBot ℝ) ∧
    cosine q (some v) = ((claimedCosine q v : ℝ) : WithBot ℝ) := by
  refine ⟨rfl, rfl, ?_, ?_⟩
  · simp only [cosine, if_neg hv]
  · have hm : min v.length q.length = q.length := min_eq_right hq
    have ht : q.take (min v.length q.length) = q := by
      rw [hm]
      exact List.take_length q
    simp only [cosine, if_neg hv, claimedCosine, qnorm, ht]

/-- Counterexample to C6 as stated: with query `[3, 4]` and stored
vector `[1]` the code divides by the full query norm `√25 = 5` and
returns `3/5`, while the claim's both-truncated formula divides by
`√9 = 3` and yields `1`. -/
theorem c6_counterexample :
    cosine [3, 4] (some [1]) ≠ ((claimedCosine [3, 4] [1] : ℝ) : WithBot ℝ) := by
  have h25 : Real.sqrt 25 = 5 := by
    rw [show (25 : ℝ) = 5 ^ 2 by norm_num, Real.sqrt_sq (by norm_num : (0 : ℝ) ≤ 5)]
  have h9 : Real.sqrt 9 = 3 := by
    rw [show (9 : ℝ) = 3 ^ 2 by norm_num, Real.sqrt_sq (by norm_num : (0 : ℝ) ≤ 3)]
  have hc : cosine [3, 4] (some [1]) = ((3 / 5 : ℝ) : WithBot ℝ) := by
    simp only [cosine]
    rw [if_neg (by simp)]
    norm_num [vecDot, qnorm, orOne, h25, Real.sqrt_one]
  have hcc : claimedCosine [3, 4] [1] = 1 := by
    unfold claimedCosine
    norm_num [vecDot, orOne, h9, Real.sqrt_one]
  rw [hc, hcc]
  simp only [ne_eq, WithBot.coe_eq_coe]
  norm_num

/-- Witness for C6's amended theorem at a concrete input where the query
is shorter than the stored vector. -/
theorem c6_witness :
    cosine [1] (some [1, 1]) = ((claimedCosine [1] [1, 1] : ℝ) : WithBot ℝ) :=
  (c6_cosine_truncation [1] [1, 1] (by simp) (by simp)).2.2.2

/-! ## Per-label cap (C1) -/

theorem mem_foldl_append {α β : Type} (f : β → List α) (l : List β) (init : List α) (a : α) :
    a ∈ l.foldl (fun acc x => acc ++ f x) init ↔ a ∈ init ∨ ∃ x ∈ l, a ∈ f x := by
  induction l generalizing init with
  | nil => simp
  | cons b t ih =>
    rw [List.foldl_cons, ih]
    simp [List.mem_append, or_assoc]

theorem mem_bucketOf {E : Type} {m : Node E} {lbl : String} {ns : List (Node E)}
    (h : m ∈ bucketOf lbl ns) : m ∈ ns ∧ lbl ∈ m.labels ∧ m.id ≠ "" := by
  rw [bucketOf, mem_foldl_append] at h
  rcases h with h | ⟨n, hn, hm⟩
  · simp at h
  · by_cases hid : n.id = ""
    · rw [if_pos hid] at hm
      simp at hm
    · rw [if_neg hid] at hm
      obtain ⟨hcount, rfl⟩ := (List.mem_replicate).mp hm
      have hpos : 0 < m.labels.count lbl := Nat.pos_of_ne_zero hcount
      exact ⟨hn, List.count_pos_iff.mp hpos, hid⟩

theorem mem_topKeepIds {E σ : Type} [LinearOrder σ] {key : Node E → WithBot σ} {top : Nat}
    {bucket : List (Node E)} {a : String} (h : a ∈ topKeepIds key top bucket) :
    ∃ m ∈ bucket, m.id = a := by
  rw [topKeepIds] at h
  obtain ⟨m, hm, hma⟩ := List.mem_map.mp h
  have h1 : m ∈ (sortDesc key bucket).take top := (List.mem_filter.mp hm).1
  have h2 : m ∈ sortDesc key bucket := List.mem_of_mem_take h1
  exact ⟨m, (sortDesc_perm key bucket).mem_iff.mp h2, hma⟩

theorem length_topKeepIds_le {E σ : Type} [LinearOrder σ] (key : Node E → WithBot σ)
    (top : Nat) (bucket : List (Node E)) : (topKeepIds key top bucket).length ≤ top := by
  rw [topKeepIds, List.length_map]
  refine le_trans (List.length_filter_le _ _) ?_
  rw [List.length_take]
  exact min_le_left top _

/-- C1 (amended): for a fetched neighborhood whose node records are
deduplicated by id (as the adapter's `apoc.coll.toSet` guarantees) and
each of whose nodes carries at most one label, pruning keeps at most
`top_per_label` non-protected nodes of each label; and every fetched node
whose id is protected survives pruning.  (Without the one-label
hypothesis the cap can be exceeded: a multi-label node kept through one
of its labels also counts against its other labels — see the
counterexample.) -/
theorem c1_per_label_cap {E σ : Type} [LinearOrder σ] [DecidableEq E]
    (score : List E → Node E → σ)
    (fetch : List String → Except Unit (Option (List (Node E) × List Edge)))
    (eids : List String) (q : List E) (top : Nat) (keep : List String)
    (ns : List (Node E)) (es : List Edge) (lbl : String)
    (hf : fetch eids = Except.ok (some (ns, es))) (hne : eids ≠ [])
    (hnd : (ns.map Node.id).Nodup) (hlab : ∀ n ∈ ns, n.labels.length ≤ 1) :
    countSurv lbl keep (one_hop_subgraph score fetch eids (some q) top keep) ≤ top ∧
    protectedKept keep ns (one_hop_subgraph score fetch eids (some q) top keep) = true := by
  have hres : one_hop_subgraph score fetch eids (some q) top keep =
      pruneByEmbedding (score q) top keep ns es := by
    simp [one_hop_subgraph, hne, hf]
  rw [hres]
  constructor
  · rw [countSurv]
    simp only [pruneByEmbedding]
    set key := scoreKey (scoresMap (score q) ns) with hkeydef
    set kI := (labelsIn ns).foldl
      (fun acc l => acc ++ topKeepIds key top (bucketOf l ns)) [] with hkIdef
    set S := (ns.filter (fun n => decide (n.id ∈ kI ++ keep))).filter
      (fun n => decide (lbl ∈ n.labels) && decide (n.id ∉ keep)) with hSdef
    have hmapS : (S.map Node.id).Nodup := by
      have hsub : S.Sublist ns := (List.filter_sublist _).trans (List.filter_sublist _)
      exact (hsub.map Node.id).nodup hnd
    have hsubset : ∀ a ∈ S.map Node.id, a ∈ topKeepIds key top (bucketOf lbl ns) := by
      intro a ha
      obtain ⟨n, hnS, rfl⟩ := List.mem_map.mp ha
      obtain ⟨hn1, hpred⟩ := List.mem_filter.mp hnS
      rw [Bool.and_eq_true, decide_eq_true_eq, decide_eq_true_eq] at hpred
      obtain ⟨hlblmem, hnkeep⟩ := hpred
      obtain ⟨hnns, hinkeepAll⟩ := List.mem_filter.mp hn1
      rw [decide_eq_true_eq, List.mem_append] at hinkeepAll
      have hinkI : n.id ∈ kI := by
        rcases hinkeepAll with h | h
        · exact h
        · exact absurd h hnkeep
      rw [hkIdef, mem_foldl_append] at hinkI
      rcases hinkI with h | ⟨lbl', hlbl', hin⟩
      · simp at h
      · obtain ⟨m, hmb, hmid⟩ := mem_topKeepIds hin
        obtain ⟨hmns, hlblm, hmne⟩ := mem_bucketOf hmb
        have hmn : m = n := List.inj_on_of_nodup_map hnd hmns hnns hmid
        rw [hmn] at hlblm
        have hone := hlab n hnns
        have heq : lbl' = lbl := by
          cases hls : n.labels with
          | nil =>
            rw [hls] at hlblmem
            simp at hlblmem
          | cons x t =>
            rw [hls] at hone
            have ht : t = [] := List.eq_nil_of_length_eq_zero (by
              simp only [List.length_cons] at hone
              omega)
            subst ht
            rw [hls] at hlblmem hlblm
            simp only [List.mem_singleton] at hlblmem hlblm
            rw [hlblm, hlblmem]
        rwa [heq] at hin
    calc S.length = (S.map Node.id).length := (List.length_map _ _).symm
      _ = (S.map Node.id).toFinset.card := (List.toFinset_card_of_nodup hmapS).symm
      _ ≤ (topKeepIds key top (bucketOf lbl ns)).toFinset.card := by
          refine Finset.card_le_card ?_
          intro a ha
          rw [List.mem_toFinset] at ha
          rw [List.mem_toFinset]
          exact hsubset a ha
      _ ≤ (topKeepIds key top (bucketOf lbl ns)).length := List.toFinset_card_le _
      _ ≤ top := length_topKeepIds_le key top (bucketOf lbl ns)
  · rw [protectedKept, List.all_eq_true]
    intro n hn
    by_cases hk : n.id ∈ keep
    · have hmem : n ∈ (pruneByEmbedding (score q) top keep ns es).1 := by
        simp only [pruneByEmbedding]
        rw [List.mem_filter]
        refine ⟨hn, ?_⟩
        rw [decide_eq_true_eq, List.mem_append]
        exact Or.inr hk
      simp [hmem]
    · simp [hk]

/-- Counterexample to C1 as stated: with query `[1]`, cap 1 and no
protected ids, node `n2` (labels `A` and `B`, no stored vector) is the
sole member of bucket `A` and survives through it, while `n1` (label `B`,
similarity 1) wins bucket `B`; both survivors carry label `B`, so 2
non-protected nodes with label `B` survive although `top_per_label = 1`. -/
theorem c1_cap_counterexample :
    ¬ countSurv "B" [] (one_hop_subgraph cosineScore ceFetch ["x"] (some [1]) 1 []) ≤ 1 := by
  have hres : one_hop_subgraph cosineScore ceFetch ["x"] (some [1]) 1 [] =
      pruneByEmbedding (cosineScore [1]) 1 [] [ceN1, ceN2] [] := by
    simp [one_hop_subgraph, ceFetch]
  have h1id : ceN1.id = "n1" := rfl
  have h1lab : ceN1.labels = ["B"] := rfl
  have h2id : ceN2.id = "n2" := rfl
  have h2lab : ceN2.labels = ["A", "B"] := rfl
  have hc2 : cosineScore [1] ceN2 = ⊥ := rfl
  have hnlt : ¬ ((cosineScore [1] ceN1 : WithBot (WithBot ℝ)) <
      (cosineScore [1] ceN2 : WithBot (WithBot ℝ))) := by
    rw [hc2, WithBot.coe_lt_coe]
    exact not_lt_bot
  have hns : (pruneByEmbedding (cosineScore [1]) 1 [] [ceN1, ceN2] []).1 = [ceN1, ceN2] := by
    simp [pruneByEmbedding, scoresMap, upsert, scoreKey, alookup, labelsIn, insertFirst,
      bucketOf, topKeepIds, sortDesc, insertDesc, h1id, h1lab, h2id, h2lab, hnlt]
  have hcount : countSurv "B" [] (pruneByEmbedding (cosineScore [1]) 1 [] [ceN1, ceN2] []) = 2 := by
    rw [countSurv, hns]
    simp [h1lab, h2lab]
  rw [hres, hcount]
  omega

/-- Witness for C1's amended theorem at a concrete input: two
single-label candidates with distinct ids, cap 1, one protected id. -/
theorem c1_witness :
    countSurv "L" ["b"] (one_hop_subgraph wScore wFetch ["x"] (some []) 1 ["b"]) ≤ 1 ∧
    protectedKept ["b"] [wN1, wN2]
      (one_hop_subgraph wScore wFetch ["x"] (some []) 1 ["b"]) = true :=
  c1_per_label_cap wScore wFetch ["x"] [] 1 ["b"] [wN1, wN2] [] "L" rfl (by decide)
    (by decide) (by decide)
